import Mathlib

/-!
# Verification of the `chessman` chess-position core

Shallow embedding of the repository's Rust sources (`src/lib.rs`,
`src/board.rs`): the piece model, the square-addressing scheme, the board,
and the FEN board/side decoder, together with theorems settling the tracked
properties.

Machine integers (`u8`, `usize`) are modelled as `Nat`; every guarded
arithmetic operation in the source stays below its type's bound, so no
wrap-around modelling is needed.  Rust `Option`/`Result` become Lean
`Option`/`Except`.  A reachable `unwrap` on `None` (a Rust panic) is made
explicit in the result type where it exists.
-/

deriving instance DecidableEq for Except

set_option maxRecDepth 100000

namespace Chessman

/-- `PieceColor` from `lib.rs`: the two piece colors. -/
inductive PieceColor where
  | White
  | Black
deriving DecidableEq

/-- `PieceColor::opposite`. -/
def PieceColor.opposite : PieceColor → PieceColor
  | .White => .Black
  | .Black => .White

/-- `PieceKind` from `lib.rs`: the six chess piece kinds. -/
inductive PieceKind where
  | King
  | Queen
  | Rook
  | Bishop
  | Knight
  | Pawn
deriving DecidableEq

/-- `Piece` from `lib.rs`: a color paired with a kind. -/
structure Piece where
  color : PieceColor
  kind : PieceKind
deriving DecidableEq

/-- `Piece::new`. -/
def Piece.new (color : PieceColor) (kind : PieceKind) : Piece :=
  ⟨color, kind⟩

/-- `Piece::from_fen`: decode a FEN character to a piece; uppercase is White,
lowercase is Black; any other character gives `none`.  The Rust `match` on the
12 character literals is an equality-test chain. -/
def Piece.from_fen (c : Char) : Option Piece :=
  if c = 'K' then some (Piece.new .White .King)
  else if c = 'k' then some (Piece.new .Black .King)
  else if c = 'Q' then some (Piece.new .White .Queen)
  else if c = 'q' then some (Piece.new .Black .Queen)
  else if c = 'R' then some (Piece.new .White .Rook)
  else if c = 'r' then some (Piece.new .Black .Rook)
  else if c = 'B' then some (Piece.new .White .Bishop)
  else if c = 'b' then some (Piece.new .Black .Bishop)
  else if c = 'N' then some (Piece.new .White .Knight)
  else if c = 'n' then some (Piece.new .Black .Knight)
  else if c = 'P' then some (Piece.new .White .Pawn)
  else if c = 'p' then some (Piece.new .Black .Pawn)
  else none

/-- `Piece::to_fen`: encode a piece as its FEN character. -/
def Piece.to_fen (p : Piece) : Char :=
  match p.color, p.kind with
  | .White, .King => 'K'
  | .Black, .King => 'k'
  | .White, .Queen => 'Q'
  | .Black, .Queen => 'q'
  | .White, .Rook => 'R'
  | .Black, .Rook => 'r'
  | .White, .Bishop => 'B'
  | .Black, .Bishop => 'b'
  | .White, .Knight => 'N'
  | .Black, .Knight => 'n'
  | .White, .Pawn => 'P'
  | .Black, .Pawn => 'p'

/-- `Square` from `lib.rs`: a board position held as a linear index
(`a1` = 0 … `h8` = 63).  The Rust `u8` payload is a `Nat`; every constructor
keeps it below 64. -/
structure Square where
  val : Nat
deriving DecidableEq

/-- `Square::new` (named `Square::from_rank_and_file` where `board.rs` uses
it): succeeds exactly when both rank and file are below 8. -/
def Square.new (rank file : Nat) : Option Square :=
  if rank < 8 ∧ file < 8 then some ⟨rank * 8 + file⟩ else none

/-- `Square::file`: the file (0–7). -/
def Square.file (sq : Square) : Nat :=
  sq.val % 8

/-- `Square::rank`: the rank (0–7). -/
def Square.rank (sq : Square) : Nat :=
  sq.val / 8

/-- `Square::index`: the linear index (0–63). -/
def Square.index (sq : Square) : Nat :=
  sq.val

/-- Outcome of Rust's `<Square as FromStr>::from_str`: a square, the typed
`ParseSquareError`, or a panic (the `.unwrap()` on `chars().nth(1)` when the
2-byte string holds a single multi-byte character). -/
inductive SquareParseOutcome where
  | ok (sq : Square)
  | err
  | panicked
deriving DecidableEq

/-- `<Square as FromStr>::from_str` from `lib.rs`.  Rust's `s.len()` is the
UTF-8 byte length; `s.chars().nth(i)` indexes the character sequence, which
is `s.data` here.  Character ranges are compared by code point:
`'a'`–`'h'` is 97–104 and `'1'`–`'8'` is 49–56. -/
def Square.from_str (s : String) : SquareParseOutcome :=
  if s.utf8ByteSize ≠ 2 then .err
  else
    match s.data.get? 0, s.data.get? 1 with
    | some file_char, some rank_char =>
      if 97 ≤ file_char.toNat ∧ file_char.toNat ≤ 104 then
        if 49 ≤ rank_char.toNat ∧ rank_char.toNat ≤ 56 then
          match Square.new (rank_char.toNat - 49) (file_char.toNat - 97) with
          | some sq => .ok sq
          | none => .err
        else .err
      else .err
    | _, _ => .panicked

/-- `Board` from `board.rs`: 64 optional-piece slots (here a length-64 list,
slot `i` for the square of index `i`) and the side to move. -/
structure Board where
  squares : List (Option Piece)
  side_to_move : PieceColor
deriving DecidableEq

/-- `Board::new`: all 64 slots empty, White to move. -/
def Board.new : Board :=
  ⟨List.replicate 64 none, .White⟩

/-- `Board::piece_at`: read the slot at the square's index. -/
def Board.piece_at (b : Board) (sq : Square) : Option Piece :=
  b.squares.getD sq.index none

/-- `Board::set_piece_at`: overwrite the slot at the square's index. -/
def Board.set_piece_at (b : Board) (sq : Square) (p : Option Piece) : Board :=
  { b with squares := b.squares.set sq.index p }

/-- The `back_rank` array from `Board::startpos`. -/
def backRank : List PieceKind :=
  [.Rook, .Knight, .Bishop, .Queen, .King, .Bishop, .Knight, .Rook]

/-- `Board::startpos`: the standard initial position.  The loop over
`back_rank.into_iter().enumerate()` is a fold over the enumerated list; each
`Square::new(..).unwrap()` call is in range, so the `getD` default is dead. -/
def Board.startpos : Board :=
  backRank.enum.foldl
    (fun board fk =>
      let file := fk.1
      let kind := fk.2
      let board := board.set_piece_at ((Square.new 0 file).getD ⟨0⟩)
        (some (Piece.new .White kind))
      let board := board.set_piece_at ((Square.new 1 file).getD ⟨0⟩)
        (some (Piece.new .White .Pawn))
      let board := board.set_piece_at ((Square.new 7 file).getD ⟨0⟩)
        (some (Piece.new .Black kind))
      board.set_piece_at ((Square.new 6 file).getD ⟨0⟩)
        (some (Piece.new .Black .Pawn)))
    Board.new

/-- `ParseFenError` from `board.rs` holds a diagnostic string; here each
`format!`/string the source wraps becomes one constructor carrying the data
interpolated into the message (see `ParseFenError.message`). -/
inductive ParseFenError where
  | notEnoughParts
  | incorrectNumberOfRanks
  | rankDoesNotExpand (rankNo : Nat)
  | tooManySquares (rankNo : Nat)
  | unknownPieceChar (c : Char)
  | squareOutOfBounds
  | rankDoesNotEndOnFile8 (rankNo : Nat)
  | invalidSideToMove
deriving DecidableEq

/-- The diagnostic string each `ParseFenError` case carries in `board.rs`
(`\x27` is the ASCII apostrophe around the offending character). -/
def ParseFenError.message : ParseFenError → String
  | .notEnoughParts => "Invalid FEN: Not enough parts"
  | .incorrectNumberOfRanks => "Invalid FEN: Incorrect number of ranks"
  | .rankDoesNotExpand n => s!"Invalid FEN: Rank {n} does not expand to 8 squares"
  | .tooManySquares n => s!"Invalid FEN: Too many squares in rank {n}"
  | .unknownPieceChar c => s!"Invalid FEN: Unknown piece character \x27{c}\x27"
  | .squareOutOfBounds => "Invalid FEN: Square out of bounds"
  | .rankDoesNotEndOnFile8 n => s!"Invalid FEN: Rank {n} does not end on file 8"
  | .invalidSideToMove => "Invalid FEN: Invalid side to move"

/-- Split a character list at every separator the predicate accepts, keeping
empty pieces — the semantics of Rust's `str::split(char)`. -/
def splitChars (p : Char → Bool) : List Char → List Char → List (List Char)
  | [], acc => [acc.reverse]
  | c :: rest, acc =>
    if p c then acc.reverse :: splitChars p rest []
    else splitChars p rest (c :: acc)

/-- Rust's `str::split_whitespace`: split on whitespace and drop the empty
pieces.  (Rust uses the Unicode white-space property; `Char.isWhitespace`
covers the ASCII subset, which is all the tracked properties depend on.) -/
def splitWhitespaceChars (cs : List Char) : List (List Char) :=
  (splitChars Char.isWhitespace cs []).filter (· ≠ [])

/-- The `parts` vector of `Board::from_str`: `s.split_whitespace().collect()`. -/
def fenParts (s : String) : List (List Char) :=
  splitWhitespaceChars s.data

/-- The `ranks` vector of `Board::from_str`: `parts[0].split('/').collect()`. -/
def fenRanks (s : String) : List (List Char) :=
  splitChars (· = '/') ((fenParts s).getD 0 []) []

/-- `matches!(c, '1'..='8')`, compared by code point (`'1'` = 49, `'8'` = 56). -/
def isFenDigit (c : Char) : Bool :=
  49 ≤ c.toNat && c.toNat ≤ 56

/-- The number of files one rank-group character expands to: its digit value
(`c.to_digit(10)`, i.e. code point minus 48) for `'1'`–`'8'`, otherwise 1. -/
def charWidth (c : Char) : Nat :=
  if isFenDigit c then c.toNat - 48 else 1

/-- The `file_count` accumulated over one rank group by the width
pre-check loop of `Board::from_str`. -/
def rankWidth : List Char → Nat
  | [] => 0
  | c :: rest => charWidth c + rankWidth rest

/-- The width pre-check loop of `Board::from_str`: every rank group must
expand to exactly 8 files; the diagnostic names rank `8 - rank_index`. -/
def checkWidths : List (List Char) → Nat → Except ParseFenError Unit
  | [], _ => .ok ()
  | r :: rest, rank_index =>
    if rankWidth r ≠ 8 then .error (.rankDoesNotExpand (8 - rank_index))
    else checkWidths rest (rank_index + 1)

/-- The inner placement loop of `Board::from_str` over one rank group's
characters, carrying the running `file_index` cursor.  The `file_index > 7`
check runs before each character is consumed; the `file_index != 8` check
runs after the group is exhausted. -/
def placeRank (board : Board) (rank_index : Nat) :
    List Char → Nat → Except ParseFenError Board
  | [], file_index =>
    if file_index ≠ 8 then .error (.rankDoesNotEndOnFile8 (8 - rank_index))
    else .ok board
  | c :: rest, file_index =>
    if file_index > 7 then .error (.tooManySquares (8 - rank_index))
    else if isFenDigit c then
      placeRank board rank_index rest (file_index + (c.toNat - 48))
    else
      match Piece.from_fen c with
      | none => .error (.unknownPieceChar c)
      | some piece =>
        match Square.new (7 - rank_index) file_index with
        | none => .error .squareOutOfBounds
        | some square =>
          placeRank (board.set_piece_at square (some piece)) rank_index rest
            (file_index + 1)

/-- The outer placement loop of `Board::from_str` over the enumerated rank
groups. -/
def placeRanks (board : Board) :
    List (List Char) → Nat → Except ParseFenError Board
  | [], _ => .ok board
  | r :: rest, rank_index =>
    match placeRank board rank_index r 0 with
    | .error e => .error e
    | .ok board2 => placeRanks board2 rest (rank_index + 1)

/-- `<Board as FromStr>::from_str` / `Board::from_fen` from `board.rs`:
whitespace-split into fields (at least two), slash-split the first into
exactly 8 rank groups, pre-check every group's width, place the pieces, then
read the side-to-move token. -/
def Board.from_fen (s : String) : Except ParseFenError Board :=
  if (fenParts s).length < 2 then .error .notEnoughParts
  else if (fenRanks s).length ≠ 8 then .error .incorrectNumberOfRanks
  else
    match checkWidths (fenRanks s) 0 with
    | .error e => .error e
    | .ok _ =>
      match placeRanks Board.new (fenRanks s) 0 with
      | .error e => .error e
      | .ok board =>
        if (fenParts s).getD 1 [] = ['w'] then
          .ok { board with side_to_move := .White }
        else if (fenParts s).getD 1 [] = ['b'] then
          .ok { board with side_to_move := .Black }
        else .error .invalidSideToMove

/-- One rank line of `<Board as Display>::fmt`: the 1-based rank number, a
space, then each file's piece letter or `.` filler followed by a space, ended
by the newline `writeln!` appends. -/
def Board.renderRank (b : Board) (rank : Nat) : String :=
  toString (rank + 1) ++ " " ++
    String.join ((List.range 8).map (fun file =>
      let square := (Square.new rank file).getD ⟨0⟩
      let ch := (b.piece_at square).elim '.' Piece.to_fen
      String.singleton ch ++ " ")) ++ "\n"

/-- `<Board as Display>::fmt` from `board.rs`/`lib.rs`: ranks 8 down to 1,
then the file-letter legend line. -/
def Board.render (b : Board) : String :=
  String.join (((List.range 8).reverse).map b.renderRank) ++
    "  a b c d e f g h\n"

/-- Modelled from the spec: the repository's sources contain no FEN
board-text encoder (only the parser and the human-readable `Display`);
sections 4.4 and 6 of the spec describe one.  One rank group: files a to h,
a piece's FEN letter for an occupied square, and a pending run-length count
of consecutive empty files flushed as a digit before each piece and at the
end of the rank. -/
def encodeRank (b : Board) (rank : Nat) : String :=
  let step := fun (acc : String × Nat) (file : Nat) =>
    match b.piece_at ((Square.new rank file).getD ⟨0⟩) with
    | some p =>
      ((acc.1 ++ (if acc.2 = 0 then "" else toString acc.2)).push p.to_fen, 0)
    | none => (acc.1, acc.2 + 1)
  let r := (List.range 8).foldl step ("", 0)
  r.1 ++ (if r.2 = 0 then "" else toString r.2)

/-- Join rank groups with `/` and no trailing separator. -/
def joinSlash : List String → String
  | [] => ""
  | [r] => r
  | r :: rest => r ++ "/" ++ joinSlash rest

/-- Modelled from the spec: the FEN board-text encoder of spec sections 4.4
and 6 — ranks 8 down to 1, run-length digits for empty runs, `/` between
ranks, no trailing `/`, and no side-to-move field. -/
def Board.to_fen (b : Board) : String :=
  joinSlash (((List.range 8).reverse).map (encodeRank b))

/-- The board that `"8/8/8/3k4/8/8/4K3/8 b"` describes: empty except for a
Black king on d5 (rank index 4, file index 3) and a White king on e2
(rank index 1, file index 4), Black to move. -/
def kingsOnlyBoard : Board :=
  { (Board.new.set_piece_at ((Square.new 4 3).getD ⟨0⟩)
        (some (Piece.new .Black .King))).set_piece_at
      ((Square.new 1 4).getD ⟨0⟩) (some (Piece.new .White .King)) with
    side_to_move := .Black }

/-! ## Theorems settling the tracked properties -/

/-- C1 (counterexample): the FEN parser rejects the encoder's bare board
text for `startpos` — the encoder emits no side-to-move field, and the
parser requires at least two whitespace-separated fields — so decoding the
encoded text directly does not yield `startpos`. -/
theorem fen_roundtrip_bare_text_fails :
    Board.from_fen (Board.to_fen Board.startpos) ≠ .ok Board.startpos ∧
    Board.from_fen (Board.to_fen Board.startpos) =
      .error .notEnoughParts := by
  decide

/-- C1 (amended): encoding `startpos` to FEN board text yields the standard
board field, and decoding it back with a side-to-move field appended yields
a board equal to `startpos`. -/
theorem fen_roundtrip_startpos :
    Board.to_fen Board.startpos =
      "rnbqkbnr/pppppppp/8/8/8/8/PPPPPPPP/RNBQKBNR" ∧
    Board.from_fen (Board.to_fen Board.startpos ++ " w") =
      .ok Board.startpos := by
  decide

/-- C2 (code evaluated at the failing input): `Square.from_str` reaches the
`unwrap`-on-`None` panic on the input `"é"`, whose UTF-8 byte length is 2
but which holds a single character, instead of returning the typed
`ParseSquareError`; a well-formed input still parses. -/
theorem square_from_str_panics_on_multibyte :
    Square.from_str "é" = .panicked ∧
    Square.from_str "e4" = .ok ⟨3 * 8 + 4⟩ := by
  decide

/-- C3: each of the five malformed FEN inputs is rejected with its own
diagnostic; none returns a board. -/
theorem fen_malformed_inputs_rejected :
    Board.from_fen "invalid_fen_string" = .error .notEnoughParts ∧
    Board.from_fen "8/8/8/8/8/8/8 w" = .error .incorrectNumberOfRanks ∧
    Board.from_fen "9/8/8/8/8/8/8/8 w" = .error (.rankDoesNotExpand 8) ∧
    Board.from_fen "8/8/8/8/8/8/8/7X w" = .error (.unknownPieceChar 'X') ∧
    Board.from_fen "8/8/8/8/8/8/8/8 x" = .error .invalidSideToMove := by
  decide

/-- C4: decoding the standard starting-position FEN succeeds and yields
exactly `startpos`, whose side to move is White. -/
theorem fen_startpos_decodes :
    Board.from_fen "rnbqkbnr/pppppppp/8/8/8/8/PPPPPPPP/RNBQKBNR w" =
      .ok Board.startpos ∧
    Board.startpos.side_to_move = .White := by
  decide

/-- C8: decoding `"8/8/8/3k4/8/8/4K3/8 b"` succeeds with a Black king on
rank index 4 / file index 3 (d5), a White king on rank index 1 / file
index 4 (e2), every other square empty, and Black to move. -/
theorem fen_kings_only_decodes :
    Board.from_fen "8/8/8/3k4/8/8/4K3/8 b" = .ok kingsOnlyBoard ∧
    kingsOnlyBoard.piece_at ((Square.new 4 3).getD ⟨0⟩) =
      some (Piece.new .Black .King) ∧
    kingsOnlyBoard.piece_at ((Square.new 1 4).getD ⟨0⟩) =
      some (Piece.new .White .King) ∧
    (∀ i : Fin 64, i.val = 4 * 8 + 3 ∨ i.val = 1 * 8 + 4 ∨
      kingsOnlyBoard.piece_at ⟨i.val⟩ = none) ∧
    kingsOnlyBoard.side_to_move = .Black := by
  decide

/-- C9: rendering `startpos` produces exactly the nine-line human-readable
layout — ranks 8 down to 1, each as the rank number, a space, and the eight
file cells (piece letter or `.`, each followed by a space), then the
file-letter legend line. -/
theorem render_startpos :
    Board.render Board.startpos =
      "8 r n b q k b n r \n7 p p p p p p p p \n6 . . . . . . . . \n5 . . . . . . . . \n4 . . . . . . . . \n3 . . . . . . . . \n2 P P P P P P P P \n1 R N B Q K B N R \n  a b c d e f g h\n" := by
  decide

/-- C7: `Piece.from_fen` accepts exactly the twelve FEN piece letters, and
decoding the encoding of any piece gives that piece back. -/
theorem piece_fen_decode_encode :
    (∀ c : Char, (Piece.from_fen c).isSome ↔
      (c = 'K' ∨ c = 'k' ∨ c = 'Q' ∨ c = 'q' ∨ c = 'R' ∨ c = 'r' ∨
        c = 'B' ∨ c = 'b' ∨ c = 'N' ∨ c = 'n' ∨ c = 'P' ∨ c = 'p')) ∧
    (∀ p : Piece, Piece.from_fen p.to_fen = some p) := by
  constructor
  · intro c
    constructor
    · intro h
      by_contra hall
      push_neg at hall
      obtain ⟨h1, h2, h3, h4, h5, h6, h7, h8, h9, h10, h11, h12⟩ := hall
      unfold Piece.from_fen at h
      rw [if_neg h1, if_neg h2, if_neg h3, if_neg h4, if_neg h5, if_neg h6,
        if_neg h7, if_neg h8, if_neg h9, if_neg h10, if_neg h11,
        if_neg h12] at h
      simp at h
    · intro h
      rcases h with rfl | rfl | rfl | rfl | rfl | rfl | rfl | rfl | rfl |
        rfl | rfl | rfl <;> decide
  · intro p
    obtain ⟨c, k⟩ := p
    cases c <;> cases k <;> rfl

/-- C6: in-range rank/file construction succeeds and the accessors return
the inputs with `index = rank * 8 + file`; out-of-range construction
returns `none`. -/
theorem square_new_rank_file_index (rank file : Nat) :
    (rank < 8 → file < 8 →
      ∃ sq, Square.new rank file = some sq ∧
        sq.rank = rank ∧ sq.file = file ∧ sq.index = rank * 8 + file) ∧
    (7 < rank ∨ 7 < file → Square.new rank file = none) := by
  constructor
  · intro h1 h2
    refine ⟨⟨rank * 8 + file⟩, ?_, ?_, ?_, rfl⟩
    · unfold Square.new
      rw [if_pos ⟨h1, h2⟩]
    · show (rank * 8 + file) / 8 = rank
      omega
    · show (rank * 8 + file) % 8 = file
      omega
  · intro h
    unfold Square.new
    rw [if_neg]
    omega

/-- C6 witness: the in-range case at (4, 5) and the out-of-range case at
(8, 0). -/
theorem square_new_rank_file_index_witness :
    (∃ sq, Square.new 4 5 = some sq ∧
      sq.rank = 4 ∧ sq.file = 5 ∧ sq.index = 4 * 8 + 5) ∧
    Square.new 8 0 = none :=
  ⟨(square_new_rank_file_index 4 5).1 (by decide) (by decide),
   (square_new_rank_file_index 8 0).2 (Or.inl (by decide))⟩

/-! ## Lemmas about the FEN validation passes -/

/-- `isFenDigit` tests the code-point range of `'1'`–`'8'`. -/
theorem isFenDigit_iff (c : Char) :
    isFenDigit c = true ↔ 49 ≤ c.toNat ∧ c.toNat ≤ 56 := by
  unfold isFenDigit
  simp [Bool.and_eq_true, decide_eq_true_eq]

/-- Every rank-group character expands to at least one file. -/
theorem charWidth_pos (c : Char) : 1 ≤ charWidth c := by
  unfold charWidth
  split_ifs with h
  · rw [isFenDigit_iff] at h
    omega
  · exact le_refl 1

/-- Two `Except.error` results with different diagnostics differ. -/
theorem error_ne_error {α : Type} {e1 e2 : ParseFenError}
    (h : e1 = e2 → False) :
    (Except.error e1 : Except ParseFenError α) ≠ Except.error e2 := by
  intro hc
  injection hc with h2
  exact h h2

/-- An `Except.ok` result is never an `Except.error` result. -/
theorem ok_ne_error {α : Type} (a : α) (e : ParseFenError) :
    (Except.ok a : Except ParseFenError α) ≠ Except.error e :=
  fun hc => Except.noConfusion hc

/-- If the width pre-check passes, every rank group expands to exactly
8 files. -/
theorem checkWidths_ok (rs : List (List Char)) : ∀ i : Nat,
    checkWidths rs i = .ok () → ∀ r ∈ rs, rankWidth r = 8 := by
  induction rs with
  | nil =>
    intro i _ r hr
    cases hr
  | cons a rest ih =>
    intro i h r hr
    simp only [checkWidths] at h
    by_cases ha : rankWidth a ≠ 8
    · rw [if_pos ha] at h
      exact Except.noConfusion h
    · rw [if_neg ha] at h
      rcases List.mem_cons.mp hr with rfl | hr2
      · omega
      · exact ih (i + 1) h r hr2

/-- The width pre-check can only fail with a `rankDoesNotExpand`
diagnostic. -/
theorem checkWidths_error (rs : List (List Char)) : ∀ (i : Nat)
    (e : ParseFenError), checkWidths rs i = .error e →
    ∃ k, e = .rankDoesNotExpand k := by
  induction rs with
  | nil =>
    intro i e h
    exact Except.noConfusion h
  | cons a rest ih =>
    intro i e h
    simp only [checkWidths] at h
    by_cases ha : rankWidth a ≠ 8
    · rw [if_pos ha] at h
      injection h with h2
      exact ⟨8 - i, h2.symm⟩
    · rw [if_neg ha] at h
      exact ih (i + 1) e h

/-- If some rank group has the wrong width, the width pre-check fails with
a `rankDoesNotExpand` diagnostic. -/
theorem checkWidths_fails (rs : List (List Char)) : ∀ i : Nat,
    (∃ r ∈ rs, rankWidth r ≠ 8) →
    ∃ k, checkWidths rs i = .error (.rankDoesNotExpand k) := by
  induction rs with
  | nil =>
    intro i h
    obtain ⟨r, hr, _⟩ := h
    cases hr
  | cons a rest ih =>
    intro i h
    simp only [checkWidths]
    by_cases ha : rankWidth a ≠ 8
    · rw [if_pos ha]
      exact ⟨8 - i, rfl⟩
    · rw [if_neg ha]
      apply ih
      obtain ⟨r, hr, hw⟩ := h
      rcases List.mem_cons.mp hr with rfl | hr2
      · exact absurd hw ha
      · exact ⟨r, hr2, hw⟩

/-- Placement over one rank group whose remaining width fits the cursor
exactly never reports `tooManySquares` or `rankDoesNotEndOnFile8`: the
cursor advances by exactly the widths the pre-check counted. -/
theorem placeRank_no_overflow (cs : List Char) :
    ∀ (b : Board) (i f k : Nat), f + rankWidth cs = 8 →
      placeRank b i cs f ≠ .error (.tooManySquares k) ∧
      placeRank b i cs f ≠ .error (.rankDoesNotEndOnFile8 k) := by
  induction cs with
  | nil =>
    intro b i f k h
    simp only [rankWidth] at h
    simp only [placeRank]
    rw [if_neg (by omega)]
    exact ⟨ok_ne_error _ _, ok_ne_error _ _⟩
  | cons c rest ih =>
    intro b i f k h
    simp only [rankWidth] at h
    have hcw : 1 ≤ charWidth c := charWidth_pos c
    simp only [placeRank]
    rw [if_neg (by omega)]
    by_cases hd : isFenDigit c = true
    · rw [if_pos hd]
      apply ih
      have hce : charWidth c = c.toNat - 48 := by
        unfold charWidth
        rw [if_pos hd]
      omega
    · rw [if_neg hd]
      have hc1 : charWidth c = 1 := by
        unfold charWidth
        rw [if_neg hd]
      cases hpf : Piece.from_fen c with
      | none =>
        simp only [hpf]
        exact ⟨error_ne_error (fun h2 => ParseFenError.noConfusion h2),
          error_ne_error (fun h2 => ParseFenError.noConfusion h2)⟩
      | some piece =>
        simp only [hpf]
        cases hsq : Square.new (7 - i) f with
        | none =>
          simp only [hsq]
          exact ⟨error_ne_error (fun h2 => ParseFenError.noConfusion h2),
            error_ne_error (fun h2 => ParseFenError.noConfusion h2)⟩
        | some square =>
          simp only [hsq]
          exact ih _ i (f + 1) k (by omega)

/-- Placement over rank groups that all expand to exactly 8 files never
reports `tooManySquares` or `rankDoesNotEndOnFile8`. -/
theorem placeRanks_no_overflow (rs : List (List Char)) :
    ∀ (b : Board) (i k : Nat), (∀ r ∈ rs, rankWidth r = 8) →
      placeRanks b rs i ≠ .error (.tooManySquares k) ∧
      placeRanks b rs i ≠ .error (.rankDoesNotEndOnFile8 k) := by
  induction rs with
  | nil =>
    intro b i k _
    simp only [placeRanks]
    exact ⟨ok_ne_error _ _, ok_ne_error _ _⟩
  | cons r rest ih =>
    intro b i k hall
    simp only [placeRanks]
    have hr8 : rankWidth r = 8 := hall r (List.mem_cons_self r rest)
    have hpr := placeRank_no_overflow r b i 0 k (by omega)
    cases hpl : placeRank b i r 0 with
    | error e =>
      rw [hpl] at hpr
      simp only [hpl]
      exact hpr
    | ok b2 =>
      simp only [hpl]
      exact ih b2 (i + 1) k (fun r2 hr2 => hall r2 (List.mem_cons_of_mem _ hr2))

/-- C10: for every input, the FEN decoder never reports the
`tooManySquares` or `rankDoesNotEndOnFile8` diagnostics — the width
pre-check makes both placement-loop error branches unreachable. -/
theorem fen_overflow_diagnostics_unreachable (s : String) (k : Nat) :
    Board.from_fen s ≠ .error (.tooManySquares k) ∧
    Board.from_fen s ≠ .error (.rankDoesNotEndOnFile8 k) := by
  unfold Board.from_fen
  by_cases h1 : (fenParts s).length < 2
  · rw [if_pos h1]
    exact ⟨error_ne_error (fun h2 => ParseFenError.noConfusion h2),
      error_ne_error (fun h2 => ParseFenError.noConfusion h2)⟩
  · rw [if_neg h1]
    by_cases h2 : (fenRanks s).length ≠ 8
    · rw [if_pos h2]
      exact ⟨error_ne_error (fun h3 => ParseFenError.noConfusion h3),
        error_ne_error (fun h3 => ParseFenError.noConfusion h3)⟩
    · rw [if_neg h2]
      cases hcw : checkWidths (fenRanks s) 0 with
      | error e =>
        obtain ⟨m, rfl⟩ := checkWidths_error (fenRanks s) 0 e hcw
        simp only [hcw]
        exact ⟨error_ne_error (fun h3 => ParseFenError.noConfusion h3),
          error_ne_error (fun h3 => ParseFenError.noConfusion h3)⟩
      | ok u =>
        cases u
        have hall := checkWidths_ok (fenRanks s) 0 hcw
        cases hpl : placeRanks Board.new (fenRanks s) 0 with
        | error e =>
          have hnb := placeRanks_no_overflow (fenRanks s) Board.new 0 k hall
          rw [hpl] at hnb
          simp only [hcw, hpl]
          exact hnb
        | ok board =>
          simp only [hcw, hpl]
          by_cases h3 : (fenParts s).getD 1 [] = ['w']
          · rw [if_pos h3]
            exact ⟨ok_ne_error _ _, ok_ne_error _ _⟩
          · rw [if_neg h3]
            by_cases h4 : (fenParts s).getD 1 [] = ['b']
            · rw [if_pos h4]
              exact ⟨ok_ne_error _ _, ok_ne_error _ _⟩
            · rw [if_neg h4]
              exact ⟨error_ne_error (fun h5 => ParseFenError.noConfusion h5),
                error_ne_error (fun h5 => ParseFenError.noConfusion h5)⟩

/-- C5: the rank-count check decides before any width check (a wrong rank
count yields its diagnostic whatever the widths), the width pre-check over
all rank groups decides before any piece character is decoded or placed and
before the side token is read (a wrong-width rank yields the
`rankDoesNotExpand` diagnostic whatever the remaining text), and the side
token is checked last (an `invalidSideToMove` diagnostic implies every
earlier check passed). -/
theorem fen_validation_order (s : String) :
    (2 ≤ (fenParts s).length → (fenRanks s).length ≠ 8 →
      Board.from_fen s = .error .incorrectNumberOfRanks) ∧
    (2 ≤ (fenParts s).length → (fenRanks s).length = 8 →
      (∃ r ∈ fenRanks s, rankWidth r ≠ 8) →
      ∃ k, Board.from_fen s = .error (.rankDoesNotExpand k)) ∧
    (Board.from_fen s = .error .invalidSideToMove →
      (fenRanks s).length = 8 ∧ ∀ r ∈ fenRanks s, rankWidth r = 8) := by
  refine ⟨?_, ?_, ?_⟩
  · intro hp hr
    unfold Board.from_fen
    rw [if_neg (by omega), if_pos hr]
  · intro hp hr hw
    obtain ⟨m, hcw⟩ := checkWidths_fails (fenRanks s) 0 hw
    refine ⟨m, ?_⟩
    unfold Board.from_fen
    rw [if_neg (by omega), if_neg (by omega)]
    simp only [hcw]
  · intro h
    unfold Board.from_fen at h
    by_cases h1 : (fenParts s).length < 2
    · rw [if_pos h1] at h
      injection h with h2
      cases h2
    · rw [if_neg h1] at h
      by_cases h2 : (fenRanks s).length ≠ 8
      · rw [if_pos h2] at h
        injection h with h3
        cases h3
      · rw [if_neg h2] at h
        push_neg at h2
        refine ⟨h2, ?_⟩
        cases hcw : checkWidths (fenRanks s) 0 with
        | error e =>
          obtain ⟨m, rfl⟩ := checkWidths_error (fenRanks s) 0 e hcw
          simp only [hcw] at h
          injection h with h3
          cases h3
        | ok u =>
          cases u
          exact checkWidths_ok (fenRanks s) 0 hcw

/-- C5 witness: the rank-count case on a 7-rank input, the width-vs-side
case on an input with both a wrong-width rank and a bad side token (the
width diagnostic wins), and the side-last case on an otherwise valid
input. -/
theorem fen_validation_order_witness :
    Board.from_fen "8/8/8/8/8/8/8 w" = .error .incorrectNumberOfRanks ∧
    (∃ k, Board.from_fen "9/8/8/8/8/8/8/8 x" =
      .error (.rankDoesNotExpand k)) ∧
    ((fenRanks "8/8/8/8/8/8/8/8 x").length = 8 ∧
      ∀ r ∈ fenRanks "8/8/8/8/8/8/8/8 x", rankWidth r = 8) :=
  ⟨(fen_validation_order "8/8/8/8/8/8/8 w").1 (by decide) (by decide),
   (fen_validation_order "9/8/8/8/8/8/8/8 x").2.1 (by decide) (by decide)
     (by decide),
   (fen_validation_order "8/8/8/8/8/8/8/8 x").2.2 (by decide)⟩

end Chessman
